import Mathlib

/-!
Shallow embedding of `COVID_example.py`, a script that parses daily COVID-19
CSV records for Italian regions, ranks observations by death-to-case ratio,
and averages new-case counts per region.

Python machine behaviour is modelled explicitly: list indexing, integer
parsing, division by zero, and dictionary insertion order are all embedded as
total Lean functions returning `Except PyErr` where the Python code can raise.
Float division in the source is modelled by exact rational division (all the
CSV fields are small integers), and `float` of the string sentinel is
modelled as NaN (`none`), whose comparisons are always false.
-/

/-- Python runtime errors the embedded functions can raise. -/
inductive PyErr where
  | indexError
  | typeError
  | zeroDivisionError
  | keyError
  deriving DecidableEq, Repr

/-- Result type of `str2int` in the source: either a parsed integer or the
string sentinel `'nan'` that the `except` branch returns. -/
inductive IntOrNan where
  | int (n : ℤ)
  | nan
  deriving DecidableEq, Repr

/-- True for the ASCII whitespace characters CPython strips around the digits
in `int(x)`. -/
def isPySpace (c : Char) : Bool :=
  c = ' ' || c = '\t' || c = '\n' || c = '\x0d' || c = '\x0b' || c = '\x0c'

/-- Decimal value of a list of digit characters, most significant first. -/
def digitsVal (ds : List Char) : ℕ :=
  ds.foldl (fun a c => 10 * a + (c.toNat - 48)) 0

/-- Parse a nonempty all-digit character list and apply `sign`; `none` when
the digits are malformed (CPython raises `ValueError` there). -/
def pyParseDigits (r : List Char) (sign : ℤ) : Option ℤ :=
  if r ≠ [] ∧ r.all Char.isDigit then some (sign * (digitsVal r : ℤ)) else none

/-- Character list of `s` with leading and trailing whitespace removed,
as CPython `int(x)` does before parsing the digits. -/
def pyTrim (s : String) : List Char :=
  ((s.toList.dropWhile isPySpace).reverse.dropWhile isPySpace).reverse

/-- Model of the CPython builtin `int : str -> int` on ASCII input: optional
surrounding whitespace, an optional single sign, then one or more decimal
digits.  (CPython additionally accepts underscores between digits and
non-ASCII digits and spaces; those extensions are not modelled.)  Returns
`none` where CPython raises `ValueError`. -/
def pyParseInt (s : String) : Option ℤ :=
  let core := pyTrim s
  if core.head? = some '+' then pyParseDigits core.tail 1
  else if core.head? = some '-' then pyParseDigits core.tail (-1)
  else pyParseDigits core 1

/-- The source function `str2int`: `int(x)` wrapped in try/except, returning
the string `'nan'` when the conversion fails. -/
def str2int (x : String) : IntOrNan :=
  match pyParseInt x with
  | some n => .int n
  | none => .nan

/-- The `Region` object of the source: one CSV row for one region on one
date.  String fields are kept verbatim; numeric fields go through
`str2int`. -/
structure Region where
  Date : String
  Name : String
  ICU : IntOrNan
  NewCases : IntOrNan
  Deaths : IntOrNan
  TotalCases : IntOrNan
  Tests : IntOrNan
  deriving DecidableEq, Repr

/-- Python list indexing `row[i]`: `IndexError` when out of range. -/
def pyIndex (row : List String) (i : ℕ) : Except PyErr String :=
  match row.get? i with
  | some s => .ok s
  | none => .error .indexError

/-- `Region.__init__`: extract the seven positional fields of one split CSV
row, in the evaluation order of the source assignments. -/
def Region.init (row : List String) : Except PyErr Region := do
  let date ← pyIndex row 0
  let name ← pyIndex row 3
  let icu := str2int (← pyIndex row 7)
  let newCases := str2int (← pyIndex row 12)
  let deaths := str2int (← pyIndex row 14)
  let totalCases := str2int (← pyIndex row 10)
  let tests := str2int (← pyIndex row 16)
  return { Date := date, Name := name, ICU := icu, NewCases := newCases,
           Deaths := deaths, TotalCases := totalCases, Tests := tests }

/-- Split a character list at every occurrence of `sep`, Python
`str.split(sep)` semantics: the empty string yields one empty field. -/
def splitOnChar (sep : Char) : List Char → List (List Char)
  | [] => [[]]
  | c :: t =>
    let r := splitOnChar sep t
    if c = sep then [] :: r
    else
      match r with
      | [] => [[c]]
      | h :: t2 => (c :: h) :: t2

/-- One line of the file as `Parse` sees it: `l.replace('\n','').split(',')`,
removing every newline and splitting on commas. -/
def splitRow (l : String) : List String :=
  (splitOnChar ',' (l.toList.filter (fun c => c ≠ '\n'))).map String.mk

/-- Sequential effectful map: stops at the first error, as a Python loop
does. -/
def mapME {α β : Type} (f : α → Except PyErr β) : List α → Except PyErr (List β)
  | [] => .ok []
  | a :: l => do
    let b ← f a
    let bs ← mapME f l
    return b :: bs

/-- The source function `Parse`, with the opened file abstracted as its list
of lines: discard the first line (header), and build one `Region` from each
remaining line in order. -/
def Parse (file : List String) : Except PyErr (List Region) :=
  mapME (fun l => Region.init (splitRow l)) (file.drop 1)

/-- Accumulator loop of `ParseFiles`: `Rs = []` then `Rs.extend(Parse(n))`
for each name in order. -/
def ParseFilesLoop : List (List String) → List Region → Except PyErr (List Region)
  | [], acc => .ok acc
  | f :: fs, acc => do
    let rs ← Parse f
    ParseFilesLoop fs (acc ++ rs)

/-- The source function `ParseFiles`, with each file abstracted as its list
of lines. -/
def ParseFiles (names : List (List String)) : Except PyErr (List Region) :=
  ParseFilesLoop names []

/-- Value of `float(self.Deaths) / self.TotalCases`: `TypeError` when the
divisor is the string sentinel, `ZeroDivisionError` when it is zero, NaN
(modelled `none`) when the dividend is the sentinel (since `float('nan')`
succeeds in Python), otherwise the exact quotient. -/
def ratioDiv (deaths total : IntOrNan) : Except PyErr (Option ℚ) :=
  match total with
  | .nan => .error .typeError
  | .int t =>
    if t = 0 then .error .zeroDivisionError
    else
      match deaths with
      | .nan => .ok none
      | .int d => .ok (some ((d : ℚ) / (t : ℚ)))

/-- `Region.__lt__`: compare the two death-to-total ratios; any comparison
with NaN is false, as for Python floats. -/
def Region.ltE (a b : Region) : Except PyErr Bool := do
  let x ← ratioDiv a.Deaths a.TotalCases
  let y ← ratioDiv b.Deaths b.TotalCases
  match x, y with
  | some p, some q => return decide (p < q)
  | _, _ => return false

/-- Stable ascending insertion with an effectful strict comparator: keep `b`
in front exactly when `lt b a` holds, which is the relative order CPython's
stable sort produces from `__lt__`. -/
def orderedInsertE (lt : Region → Region → Except PyErr Bool) (a : Region) :
    List Region → Except PyErr (List Region)
  | [] => .ok [a]
  | b :: l => do
    if (← lt b a) then
      let t ← orderedInsertE lt a l
      return b :: t
    else
      return a :: b :: l

/-- Stable ascending sort with an effectful comparator.  Any stable sort
computes the same list as CPython's stable sort, and like it, for two or
more elements it evaluates the comparator on every element at least once. -/
def insertionSortE (lt : Region → Region → Except PyErr Bool) :
    List Region → Except PyErr (List Region)
  | [] => .ok []
  | a :: l => do
    let s ← insertionSortE lt l
    orderedInsertE lt a s

/-- `sorted(Ls, reverse=True)`: CPython reverses, stable-sorts ascending
with `__lt__`, and reverses back, yielding the stable descending order. -/
def pysortedRev (Ls : List Region) : Except PyErr (List Region) := do
  let s ← insertionSortE Region.ltE Ls.reverse
  return s.reverse

/-- The source function `TopRegion`: `sorted(Ls, reverse=True)[:n]`. -/
def TopRegion (Ls : List Region) (n : ℕ := 3) : Except PyErr (List Region) := do
  let s ← pysortedRev Ls
  return s.take n

/-- First value bound to key `k` in an insertion-ordered association list
(the model of a Python dict built by item assignment). -/
def dfind {α : Type} : List (String × α) → String → Option α
  | [], _ => none
  | (k0, v) :: t, k => if k0 = k then some v else dfind t k

/-- Python `d.get(k, dflt)`. -/
def dget {α : Type} (d : List (String × α)) (k : String) (dflt : α) : α :=
  (dfind d k).getD dflt

/-- Python `d[k] = v`: update in place when the key exists (keeping its
position), otherwise append the new binding. -/
def dinsert {α : Type} : List (String × α) → String → α → List (String × α)
  | [], k, v => [(k, v)]
  | (k0, v0) :: t, k, v =>
    if k0 = k then (k0, v) :: t else (k0, v0) :: dinsert t k v

/-- `D.get(l.Name, 0) + l.NewCases`: adding the string sentinel to an integer
raises `TypeError` in Python. -/
def addField (s : ℤ) (x : IntOrNan) : Except PyErr ℤ :=
  match x with
  | .int n => .ok (s + n)
  | .nan => .error .typeError

/-- Accumulation loop of `ComputeAverage`: `D` sums new-case counts per
region name, `C` counts rows per region name. -/
def CAfold : List Region → List (String × ℤ) → List (String × ℕ) →
    Except PyErr (List (String × ℤ) × List (String × ℕ))
  | [], D, C => .ok (D, C)
  | l :: ls, D, C => do
    let s ← addField (dget D l.Name 0) l.NewCases
    CAfold ls (dinsert D l.Name s) (dinsert C l.Name (dget C l.Name 0 + 1))

/-- Round a rational to the nearest integer, halves to even, the rounding of
CPython `round`. -/
def rndHalfEven (q : ℚ) : ℤ :=
  let f := ⌊q⌋
  if q - (f : ℚ) < 1 / 2 then f
  else if (1 : ℚ) / 2 < q - (f : ℚ) then f + 1
  else if f % 2 = 0 then f else f + 1

/-- `round(x, 2)` on an exact rational. -/
def pyRound2 (q : ℚ) : ℚ :=
  (rndHalfEven (q * 100) : ℚ) / 100

/-- The source function `ComputeAverage`: accumulate sums and counts per
region name, then replace each sum with `round(sum / count, 2)`, iterating
the dictionary in insertion order. -/
def ComputeAverage (Ls : List Region) : Except PyErr (List (String × ℚ)) := do
  let (D, C) ← CAfold Ls [] []
  mapME (fun p =>
    match dfind C p.1 with
    | none => .error .keyError
    | some c =>
      if c = 0 then .error .zeroDivisionError
      else .ok (p.1, pyRound2 ((p.2 : ℚ) / (c : ℚ)))) D

/-- Python string slice `s[a:b]` for constants `a ≤ b`: clamps at the string
length, never raises. -/
def pySlice (s : String) (a b : ℕ) : String :=
  String.mk ((s.toList.drop a).take (b - a))

/-- The source function `str2date`: the fixed-position slices `s[0:4]`,
`s[5:7]`, `s[8:10]` joined by dashes. -/
def str2date (s : String) : String :=
  let year := pySlice s 0 4
  let month := pySlice s 5 7
  let day := pySlice s 8 10
  year ++ "-" ++ month ++ "-" ++ day

/-- Integer value of a field; junk value `0` on the sentinel (only used where
the sentinel is excluded). -/
def IntOrNan.val : IntOrNan → ℤ
  | .int n => n
  | .nan => 0

/-- True when the field holds a parsed integer. -/
def IntOrNan.isInt : IntOrNan → Bool
  | .int _ => true
  | .nan => false

/-- Death-to-total-case ratio as an exact rational, for sentinel-free
observations. -/
def ratioQ (o : Region) : ℚ :=
  (o.Deaths.val : ℚ) / (o.TotalCases.val : ℚ)

/-- Pure ascending comparison of ratios: the relation computed by
`Region.ltE` (negated and flipped) on sentinel-free observations. -/
def ratioLE (a b : Region) : Prop := ratioQ a ≤ ratioQ b

instance : DecidableRel ratioLE :=
  fun a b => inferInstanceAs (Decidable (ratioQ a ≤ ratioQ b))

instance : IsTotal Region ratioLE := ⟨fun _ _ => le_total _ _⟩

instance : IsTrans Region ratioLE := ⟨fun _ _ _ => le_trans⟩

/-- Sum of the new-case values of the observations named `k`. -/
def sumNC (k : String) (obs : List Region) : ℤ :=
  ((obs.filter (fun o => decide (o.Name = k))).map (fun o => o.NewCases.val)).sum

/-- Number of observations named `k`. -/
def cntNC (k : String) (obs : List Region) : ℕ :=
  (obs.filter (fun o => decide (o.Name = k))).length

/-- Spec-side characterisation of the ASCII strings CPython `int` accepts:
optional whitespace, an optional single sign, one or more decimal digits,
optional whitespace, with `n` the signed decimal value. -/
def SpecValidIntString (s : String) (n : ℤ) : Prop :=
  ∃ ws1 sg ds ws2 : List Char,
    s.toList = ws1 ++ sg ++ ds ++ ws2 ∧
    (∀ c ∈ ws1, isPySpace c) ∧
    (∀ c ∈ ws2, isPySpace c) ∧
    (sg = [] ∨ sg = ['+'] ∨ sg = ['-']) ∧
    ds ≠ [] ∧
    (∀ c ∈ ds, c.isDigit) ∧
    n = (if sg = ['-'] then -1 else 1) * (digitsVal ds : ℤ)

/-- Observation with only the name and new-case fields populated, used in
concrete instances. -/
def mkObs (name : String) (newc : IntOrNan) : Region :=
  { Date := "", Name := name, ICU := .nan, NewCases := newc,
    Deaths := .nan, TotalCases := .nan, Tests := .nan }

/-- Observation with integer deaths and total cases, used in concrete
instances of the ranking claims. -/
def mkRank (name : String) (deaths total : ℤ) : Region :=
  { Date := "", Name := name, ICU := .nan, NewCases := .nan,
    Deaths := .int deaths, TotalCases := .int total, Tests := .nan }

/-! ### Correctness of the integer parser against `SpecValidIntString` -/

lemma dropWhile_append_all {p : Char → Bool} {a b : List Char}
    (ha : ∀ c ∈ a, p c = true) (hb : ∀ c t, b = c :: t → p c = false) :
    (a ++ b).dropWhile p = b := by
  induction a with
  | nil =>
    simp only [List.nil_append]
    cases b with
    | nil => rfl
    | cons c t => simp [List.dropWhile_cons, hb c t rfl]
  | cons c a ih =>
    simp only [List.cons_append, List.dropWhile_cons, ha c (by simp)]
    exact ih fun x hx => ha x (by simp [hx])

lemma pyTrim_decomp (s : String) :
    ∃ ws1 ws2 : List Char,
      s.toList = ws1 ++ pyTrim s ++ ws2 ∧
      (∀ c ∈ ws1, isPySpace c) ∧ (∀ c ∈ ws2, isPySpace c) := by
  refine ⟨s.toList.takeWhile isPySpace,
    ((s.toList.dropWhile isPySpace).reverse.takeWhile isPySpace).reverse, ?_, ?_, ?_⟩
  · have h2 : s.toList.dropWhile isPySpace =
        pyTrim s ++ ((s.toList.dropWhile isPySpace).reverse.takeWhile isPySpace).reverse := by
      set r := (s.toList.dropWhile isPySpace).reverse with hr
      calc s.toList.dropWhile isPySpace = r.reverse := (List.reverse_reverse _).symm
        _ = (r.takeWhile isPySpace ++ r.dropWhile isPySpace).reverse := by
              rw [List.takeWhile_append_dropWhile]
        _ = (r.dropWhile isPySpace).reverse ++ (r.takeWhile isPySpace).reverse :=
              List.reverse_append _ _
        _ = pyTrim s ++ (r.takeWhile isPySpace).reverse := by rw [pyTrim, hr]
    conv_lhs => rw [← List.takeWhile_append_dropWhile (p := isPySpace) (l := s.toList), h2]
    rw [List.append_assoc]
  · exact fun c hc => List.mem_takeWhile_imp hc
  · exact fun c hc => List.mem_takeWhile_imp (List.mem_reverse.mp hc)

lemma pyParseDigits_some {r : List Char} {sign n : ℤ}
    (h : pyParseDigits r sign = some n) :
    r ≠ [] ∧ (∀ c ∈ r, c.isDigit) ∧ n = sign * (digitsVal r : ℤ) := by
  unfold pyParseDigits at h
  split at h
  · next hc =>
    obtain ⟨h1, h2⟩ := hc
    cases h
    exact ⟨h1, fun c hc => List.all_eq_true.mp h2 c hc, rfl⟩
  · cases h

lemma isDigit_not_space {c : Char} (h : c.isDigit) : isPySpace c = false := by
  by_contra hc
  have hc' : isPySpace c = true := by
    cases he : isPySpace c
    · exact absurd he hc
    · rfl
  unfold isPySpace at hc'
  simp only [Bool.or_eq_true, decide_eq_true_eq] at hc'
  rcases hc' with ((((h1 | h1) | h1) | h1) | h1) | h1 <;> subst h1 <;>
    exact absurd h (by decide)

lemma plusMinus_not_space : isPySpace '+' = false ∧ isPySpace '-' = false := by decide

lemma plusMinus_not_digit : Char.isDigit '+' = false ∧ Char.isDigit '-' = false := by decide

lemma pyParseInt_sound {s : String} {n : ℤ} (h : pyParseInt s = some n) :
    SpecValidIntString s n := by
  obtain ⟨ws1, ws2, hs, hw1, hw2⟩ := pyTrim_decomp s
  unfold pyParseInt at h
  cases hc : pyTrim s with
  | nil => rw [hc] at h; simp [pyParseDigits] at h
  | cons c r =>
    rw [hc] at h hs
    by_cases h1 : c = '+'
    · subst h1
      rw [if_pos (by rfl)] at h
      obtain ⟨hne, hdig, hval⟩ := pyParseDigits_some h
      refine ⟨ws1, ['+'], r, ws2, by simpa [List.append_assoc] using hs,
        hw1, hw2, Or.inr (Or.inl rfl), hne, hdig, ?_⟩
      simpa using hval
    · by_cases h2 : c = '-'
      · subst h2
        rw [if_neg (by simp), if_pos (by rfl)] at h
        obtain ⟨hne, hdig, hval⟩ := pyParseDigits_some h
        refine ⟨ws1, ['-'], r, ws2, by simpa [List.append_assoc] using hs,
          hw1, hw2, Or.inr (Or.inr rfl), hne, hdig, ?_⟩
        simpa using hval
      · rw [if_neg (by simp [h1]), if_neg (by simp [h2])] at h
        obtain ⟨hne, hdig, hval⟩ := pyParseDigits_some h
        refine ⟨ws1, [], c :: r, ws2, by simpa using hs,
          hw1, hw2, Or.inl rfl, hne, hdig, ?_⟩
        simpa using hval

lemma pyTrim_of_decomp {ws1 sg ds ws2 : List Char} {s : String}
    (hs : s.toList = ws1 ++ sg ++ ds ++ ws2)
    (hw1 : ∀ c ∈ ws1, isPySpace c) (hw2 : ∀ c ∈ ws2, isPySpace c)
    (hsg : sg = [] ∨ sg = ['+'] ∨ sg = ['-'])
    (hds : ds ≠ []) (hdig : ∀ c ∈ ds, c.isDigit) :
    pyTrim s = sg ++ ds := by
  have hs' : s.toList = ws1 ++ (sg ++ (ds ++ ws2)) := by
    rw [hs]; simp [List.append_assoc]
  have hnospace : ∀ c t, sg ++ (ds ++ ws2) = c :: t → isPySpace c = false := by
    intro c t hct
    rcases hsg with h0 | h0 | h0 <;> subst h0
    · cases ds with
      | nil => exact absurd rfl hds
      | cons d dr =>
        simp only [List.nil_append, List.cons_append, List.cons.injEq] at hct
        rw [← hct.1]
        exact isDigit_not_space (hdig d (by simp))
    · simp only [List.singleton_append, List.cons.injEq] at hct
      rw [← hct.1]
      exact plusMinus_not_space.1
    · simp only [List.singleton_append, List.cons.injEq] at hct
      rw [← hct.1]
      exact plusMinus_not_space.2
  have e1 : s.toList.dropWhile isPySpace = sg ++ (ds ++ ws2) := by
    rw [hs']
    exact dropWhile_append_all hw1 hnospace
  have e2 : (sg ++ (ds ++ ws2)).reverse.dropWhile isPySpace = ds.reverse ++ sg.reverse := by
    have hrev : (sg ++ (ds ++ ws2)).reverse = ws2.reverse ++ (ds.reverse ++ sg.reverse) := by
      simp [List.reverse_append]
    rw [hrev]
    apply dropWhile_append_all (fun c hc => hw2 c (List.mem_reverse.mp hc))
    intro c t hct
    cases hr : ds.reverse with
    | nil => exact absurd (by simpa using congrArg List.reverse hr) hds
    | cons d dr =>
      rw [hr] at hct
      simp only [List.cons_append, List.cons.injEq] at hct
      rw [← hct.1]
      exact isDigit_not_space (hdig d (List.mem_reverse.mp (by simp [hr])))
  unfold pyTrim
  rw [e1, e2, List.reverse_append, List.reverse_reverse, List.reverse_reverse]

lemma pyParseInt_complete {s : String} {n : ℤ} (h : SpecValidIntString s n) :
    pyParseInt s = some n := by
  obtain ⟨ws1, sg, ds, ws2, hs, hw1, hw2, hsg, hds, hdig, hn⟩ := h
  have ht := pyTrim_of_decomp hs hw1 hw2 hsg hds hdig
  unfold pyParseInt
  rw [ht]
  have hda : ds.all Char.isDigit = true := List.all_eq_true.mpr fun c hc => hdig c hc
  rcases hsg with h0 | h0 | h0 <;> subst h0
  · cases ds with
    | nil => exact absurd rfl hds
    | cons d dr =>
      have hd : d.isDigit := hdig d (by simp)
      have hdp : d ≠ '+' := fun he => by rw [he] at hd; exact absurd hd (by decide)
      have hdm : d ≠ '-' := fun he => by rw [he] at hd; exact absurd hd (by decide)
      rw [List.nil_append, if_neg (by simp [hdp]), if_neg (by simp [hdm])]
      unfold pyParseDigits
      rw [if_pos ⟨hds, hda⟩, hn]
      simp
  · rw [if_pos (by rfl)]
    unfold pyParseDigits
    simp only [List.cons_append, List.tail_cons] at ht ⊢
    rw [if_pos ⟨hds, hda⟩, hn]
    simp
  · rw [if_neg (by simp), if_pos (by rfl)]
    unfold pyParseDigits
    simp only [List.cons_append, List.tail_cons] at ht ⊢
    rw [if_pos ⟨hds, hda⟩, hn]
    simp

/-- Totality plus soundness of `str2int`: every string is sent either to the
sentinel or to an integer that the string validly denotes. -/
lemma str2int_cases (s : String) :
    str2int s = IntOrNan.nan ∨
      ∃ n : ℤ, SpecValidIntString s n ∧ str2int s = IntOrNan.int n := by
  unfold str2int
  cases hp : pyParseInt s with
  | none => exact Or.inl rfl
  | some n => exact Or.inr ⟨n, pyParseInt_sound hp, rfl⟩

lemma str2int_nan_not_valid {s : String} (h : str2int s = IntOrNan.nan) :
    ¬ ∃ n : ℤ, SpecValidIntString s n := by
  rintro ⟨n, hv⟩
  rw [str2int, pyParseInt_complete hv] at h
  cases h

/-! ### Parsing lemmas -/

lemma mapME_ok_all {α β : Type} {f : α → Except PyErr β} :
    ∀ {l : List α}, (∀ a ∈ l, ∃ b, f a = .ok b) →
      ∃ bs, mapME f l = .ok bs ∧ bs.length = l.length ∧
        ∀ i (hi : i < l.length) (hi2 : i < bs.length),
          f (l.get ⟨i, hi⟩) = .ok (bs.get ⟨i, hi2⟩)
  | [], _ => ⟨[], rfl, rfl, fun i hi _ => absurd hi (by simp)⟩
  | a :: l, h => by
    obtain ⟨b, hb⟩ := h a (by simp)
    obtain ⟨bs, hbs, hlen, hpt⟩ := mapME_ok_all (l := l) fun x hx => h x (by simp [hx])
    refine ⟨b :: bs, ?_, by simp [hlen], ?_⟩
    · simp [mapME, hb, hbs, Except.bind, bind, pure, Except.pure]
    · intro i hi hi2
      cases i with
      | zero => simpa using hb
      | succ j => exact hpt j (by simpa using hi) (by simpa using hi2)

lemma mapME_map {α β : Type} {f : α → Except PyErr β} {g : α → β} :
    ∀ {l : List α}, (∀ a ∈ l, f a = .ok (g a)) → mapME f l = .ok (l.map g)
  | [], _ => rfl
  | a :: l, h => by
    have hb := h a (by simp)
    have ih := mapME_map (l := l) fun x hx => h x (by simp [hx])
    simp [mapME, hb, ih, Except.bind, bind, pure, Except.pure]

lemma pyIndex_ok {row : List String} {i : ℕ} (h : i < row.length) :
    pyIndex row i = .ok (row.getD i "") := by
  unfold pyIndex
  rw [List.get?_eq_get h, List.getD_eq_getElem?_getD]
  simp [List.getElem?_eq_getElem h, List.get_eq_getElem]

/-- A row with at least 17 fields constructs a `Region` whose fields are
`str2int` of the positional entries. -/
lemma Region_init_ok {row : List String} (h : 17 ≤ row.length) :
    Region.init row = .ok
      { Date := row.getD 0 "", Name := row.getD 3 "", ICU := str2int (row.getD 7 ""),
        NewCases := str2int (row.getD 12 ""), Deaths := str2int (row.getD 14 ""),
        TotalCases := str2int (row.getD 10 ""), Tests := str2int (row.getD 16 "") } := by
  have e0 : pyIndex row 0 = .ok (row.getD 0 "") := pyIndex_ok (by omega)
  have e3 : pyIndex row 3 = .ok (row.getD 3 "") := pyIndex_ok (by omega)
  have e7 : pyIndex row 7 = .ok (row.getD 7 "") := pyIndex_ok (by omega)
  have e12 : pyIndex row 12 = .ok (row.getD 12 "") := pyIndex_ok (by omega)
  have e14 : pyIndex row 14 = .ok (row.getD 14 "") := pyIndex_ok (by omega)
  have e10 : pyIndex row 10 = .ok (row.getD 10 "") := pyIndex_ok (by omega)
  have e16 : pyIndex row 16 = .ok (row.getD 16 "") := pyIndex_ok (by omega)
  simp [Region.init, e0, e3, e7, e12, e14, e10, e16, Except.bind, bind, pure, Except.pure]

/-- Conversely, a successful construction pins every field of the result. -/
lemma Region_init_fields {row : List String} {reg : Region}
    (h : Region.init row = .ok reg) :
    reg.ICU = str2int (row.getD 7 "") ∧ reg.NewCases = str2int (row.getD 12 "") ∧
    reg.Deaths = str2int (row.getD 14 "") ∧ reg.TotalCases = str2int (row.getD 10 "") ∧
    reg.Tests = str2int (row.getD 16 "") := by
  unfold Region.init at h
  cases h0 : pyIndex row 0 with
  | error e => rw [h0] at h; cases h
  | ok s0 =>
  cases h3 : pyIndex row 3 with
  | error e => rw [h0, h3] at h; cases h
  | ok s3 =>
  cases h7 : pyIndex row 7 with
  | error e => rw [h0, h3, h7] at h; cases h
  | ok s7 =>
  cases h12 : pyIndex row 12 with
  | error e => rw [h0, h3, h7, h12] at h; cases h
  | ok s12 =>
  cases h14 : pyIndex row 14 with
  | error e => rw [h0, h3, h7, h12, h14] at h; cases h
  | ok s14 =>
  cases h10 : pyIndex row 10 with
  | error e => rw [h0, h3, h7, h12, h14, h10] at h; cases h
  | ok s10 =>
  cases h16 : pyIndex row 16 with
  | error e => rw [h0, h3, h7, h12, h14, h10, h16] at h; cases h
  | ok s16 =>
  rw [h0, h3, h7, h12, h14, h10, h16] at h
  simp only [Except.bind, bind, pure, Except.pure, Except.ok.injEq] at h
  have hi : ∀ j s, pyIndex row j = .ok s → s = row.getD j "" := by
    intro j s hj
    unfold pyIndex at hj
    cases hq : row.get? j with
    | none => rw [hq] at hj; cases hj
    | some t =>
      rw [hq] at hj
      cases hj
      rw [List.getD_eq_getElem?_getD, ← List.get?_eq_getElem?, hq]
      rfl
  subst h
  exact ⟨by rw [hi 7 s7 h7], by rw [hi 12 s12 h12], by rw [hi 14 s14 h14],
    by rw [hi 10 s10 h10], by rw [hi 16 s16 h16]⟩

lemma ParseFilesLoop_eq :
    ∀ (fs : List (List String)) (acc : List Region),
      ParseFilesLoop fs acc = Except.map (fun ls => acc ++ ls.flatten) (mapME Parse fs)
  | [], acc => by simp [ParseFilesLoop, mapME, Except.map]
  | f :: fs, acc => by
    unfold ParseFilesLoop mapME
    cases hp : Parse f with
    | error e => simp [hp, Except.bind, bind, Except.map]
    | ok l =>
      simp only [Except.bind, bind]
      rw [ParseFilesLoop_eq fs (acc ++ l)]
      cases hm : mapME Parse fs with
      | error e => simp [hp, hm, Except.bind, bind, Except.map]
      | ok ls => simp [hp, hm, Except.bind, bind, Except.map, pure, Except.pure]

/-! ### Dictionary lemmas and the `ComputeAverage` invariant -/

lemma dfind_dinsert {α : Type} (d : List (String × α)) (k : String) (v : α) (q : String) :
    dfind (dinsert d k v) q = if q = k then some v else dfind d q := by
  induction d with
  | nil =>
    by_cases hq : q = k
    · simp [dinsert, dfind, hq]
    · simp [dinsert, dfind, hq, Ne.symm hq]
  | cons p t ih =>
    obtain ⟨k0, v0⟩ := p
    by_cases h0 : k0 = k
    · subst h0
      by_cases hq : q = k0
      · simp [dinsert, dfind, hq]
      · simp [dinsert, dfind, hq, Ne.symm hq]
    · by_cases hq : k0 = q
      · subst hq
        simp [dinsert, dfind, h0, Ne.symm h0]
      · simp [dinsert, dfind, h0, hq, ih]

lemma dfind_eq_none_iff {α : Type} (d : List (String × α)) (k : String) :
    dfind d k = none ↔ k ∉ d.map Prod.fst := by
  induction d with
  | nil => simp [dfind]
  | cons p t ih =>
    obtain ⟨k0, v0⟩ := p
    by_cases h0 : k0 = k
    · simp [dfind, h0]
    · simp [dfind, h0, ih, Ne.symm h0]

lemma keys_dinsert {α : Type} [DecidableEq α] (d : List (String × α)) (k : String) (v : α) :
    (dinsert d k v).map Prod.fst =
      if dfind d k = none then d.map Prod.fst ++ [k] else d.map Prod.fst := by
  induction d with
  | nil => simp [dinsert, dfind]
  | cons p t ih =>
    obtain ⟨k0, v0⟩ := p
    by_cases h0 : k0 = k
    · simp [dinsert, dfind, h0]
    · simp only [dinsert, dfind, if_neg h0, List.map_cons]
      rw [ih]
      split_ifs <;> simp

lemma dfind_of_mem_nodup {α : Type} :
    ∀ {d : List (String × α)} {k : String} {v : α},
      (d.map Prod.fst).Nodup → (k, v) ∈ d → dfind d k = some v
  | [], _, _, _, h => absurd h (by simp)
  | (k0, v0) :: t, k, v, hn, h => by
    rcases List.mem_cons.mp h with he | ht
    · cases he
      simp [dfind]
    · have hk : k ∈ t.map Prod.fst := List.mem_map.mpr ⟨(k, v), ht, rfl⟩
      have hn2 : k0 ∉ t.map Prod.fst ∧ (t.map Prod.fst).Nodup := by simpa using hn
      have h0 : k0 ≠ k := by
        rintro rfl
        exact absurd hk hn2.1
      rw [dfind, if_neg h0]
      exact dfind_of_mem_nodup hn2.2 ht

lemma nodup_dinsert {α : Type} [DecidableEq α] {d : List (String × α)} (k : String) (v : α)
    (hn : (d.map Prod.fst).Nodup) : ((dinsert d k v).map Prod.fst).Nodup := by
  rw [keys_dinsert]
  split_ifs with h
  · have hk : k ∉ d.map Prod.fst := (dfind_eq_none_iff d k).mp h
    simp [List.nodup_append, hn, hk]
  · exact hn

lemma sumNC_append_one (k : String) (pre : List Region) (o : Region) :
    sumNC k (pre ++ [o]) =
      sumNC k pre + (if o.Name = k then o.NewCases.val else 0) := by
  unfold sumNC
  by_cases h : o.Name = k <;> simp [List.filter_append, h]

lemma cntNC_append_one (k : String) (pre : List Region) (o : Region) :
    cntNC k (pre ++ [o]) = cntNC k pre + (if o.Name = k then 1 else 0) := by
  unfold cntNC
  by_cases h : o.Name = k <;> simp [List.filter_append, h]

lemma sumNC_of_not_mem {k : String} {obs : List Region}
    (h : k ∉ obs.map Region.Name) : sumNC k obs = 0 ∧ cntNC k obs = 0 := by
  have he : obs.filter (fun o => decide (o.Name = k)) = [] := by
    rw [List.filter_eq_nil_iff]
    intro o ho hk
    exact h (List.mem_map.mpr ⟨o, ho, by simpa using hk⟩)
  simp [sumNC, cntNC, he]

lemma cntNC_pos {k : String} {obs : List Region}
    (h : k ∈ obs.map Region.Name) : 0 < cntNC k obs := by
  obtain ⟨o, ho, rfl⟩ := List.mem_map.mp h
  have : o ∈ obs.filter (fun x => decide (x.Name = o.Name)) :=
    List.mem_filter.mpr ⟨ho, by simp⟩
  exact List.length_pos.mpr fun he => by simp [cntNC, he] at this

/-- Invariant of the accumulation loop of `ComputeAverage` after processing
the prefix `pre`: the sum dictionary holds exactly the per-name new-case
sums, the count dictionary exactly the per-name row counts, and the two have
the same keys, without duplicates. -/
def CAInv (pre : List Region) (D : List (String × ℤ)) (C : List (String × ℕ)) : Prop :=
  (∀ k, dfind D k = if k ∈ pre.map Region.Name then some (sumNC k pre) else none) ∧
  (∀ k, dfind C k = if k ∈ pre.map Region.Name then some (cntNC k pre) else none) ∧
  D.map Prod.fst = C.map Prod.fst ∧ (D.map Prod.fst).Nodup

lemma CAInv_nil : CAInv [] [] [] := by
  refine ⟨fun k => ?_, fun k => ?_, rfl, List.nodup_nil⟩ <;> simp [dfind]

lemma CAInv_step {pre : List Region} {D : List (String × ℤ)} {C : List (String × ℕ)}
    {o : Region} {m : ℤ} (ho : o.NewCases = .int m) (h : CAInv pre D C) :
    CAInv (pre ++ [o]) (dinsert D o.Name (dget D o.Name 0 + m))
      (dinsert C o.Name (dget C o.Name 0 + 1)) := by
  obtain ⟨hD, hC, hkeys, hnd⟩ := h
  have hgD : dget D o.Name 0 = sumNC o.Name pre := by
    unfold dget
    rw [hD o.Name]
    split_ifs with hm
    · rfl
    · simp [(sumNC_of_not_mem hm).1]
  have hgC : dget C o.Name 0 = cntNC o.Name pre := by
    unfold dget
    rw [hC o.Name]
    split_ifs with hm
    · rfl
    · simp [(sumNC_of_not_mem hm).2]
  have hmemiff : ∀ k, k ∈ (pre ++ [o]).map Region.Name ↔
      (k ∈ pre.map Region.Name ∨ k = o.Name) := by
    intro k
    simp [or_comm, eq_comm]
  refine ⟨fun k => ?_, fun k => ?_, ?_, ?_⟩
  · rw [dfind_dinsert]
    by_cases hk : k = o.Name
    · subst hk
      rw [if_pos rfl, if_pos ((hmemiff _).mpr (Or.inr rfl))]
      rw [sumNC_append_one, if_pos rfl, ho, hgD]
      rfl
    · rw [if_neg hk, hD k]
      by_cases hm : k ∈ pre.map Region.Name
      · rw [if_pos hm, if_pos ((hmemiff k).mpr (Or.inl hm)), sumNC_append_one,
          if_neg fun he => hk he.symm]
        simp
      · rw [if_neg hm, if_neg (by
          intro hc
          rcases (hmemiff k).mp hc with h2 | h2
          exacts [hm h2, hk h2])]
  · rw [dfind_dinsert]
    by_cases hk : k = o.Name
    · subst hk
      rw [if_pos rfl, if_pos ((hmemiff _).mpr (Or.inr rfl))]
      rw [cntNC_append_one, if_pos rfl, hgC]
    · rw [if_neg hk, hC k]
      by_cases hm : k ∈ pre.map Region.Name
      · rw [if_pos hm, if_pos ((hmemiff k).mpr (Or.inl hm)), cntNC_append_one,
          if_neg fun he => hk he.symm]
        simp
      · rw [if_neg hm, if_neg (by
          intro hc
          rcases (hmemiff k).mp hc with h2 | h2
          exacts [hm h2, hk h2])]
  · rw [keys_dinsert, keys_dinsert, hD o.Name, hC o.Name, hkeys]
    split_ifs <;> simp_all
  · exact nodup_dinsert _ _ hnd

lemma CAfold_ok_of_int :
    ∀ {obs pre : List Region} {D : List (String × ℤ)} {C : List (String × ℕ)},
      CAInv pre D C → (∀ o ∈ obs, o.NewCases.isInt) →
      ∃ D2 C2, CAfold obs D C = .ok (D2, C2) ∧ CAInv (pre ++ obs) D2 C2
  | [], pre, D, C, h, _ => by
    refine ⟨D, C, rfl, ?_⟩
    simpa using h
  | o :: obs, pre, D, C, h, hi => by
    obtain ⟨m, hm⟩ : ∃ m, o.NewCases = IntOrNan.int m := by
      cases ho : o.NewCases with
      | int m => exact ⟨m, rfl⟩
      | nan => exact absurd (hi o (by simp)) (by simp [IntOrNan.isInt, ho])
    have hnext : ∀ x ∈ obs, x.NewCases.isInt := fun x hx => hi x (List.mem_cons_of_mem o hx)
    obtain ⟨D2, C2, hfold, hinv⟩ := CAfold_ok_of_int (CAInv_step hm h) hnext
    refine ⟨D2, C2, ?_, by simpa [List.append_assoc] using hinv⟩
    simp [CAfold, hm, addField, Except.bind, bind, hfold]

lemma CAfold_all_int :
    ∀ {obs : List Region} {D : List (String × ℤ)} {C : List (String × ℕ)}
      {R : List (String × ℤ) × List (String × ℕ)},
      CAfold obs D C = .ok R → ∀ o ∈ obs, o.NewCases.isInt
  | [], _, _, _, _ => by simp
  | o :: obs, D, C, R, h => by
    intro x hx
    cases ho : o.NewCases with
    | nan => rw [CAfold] at h; simp [ho, addField, Except.bind, bind] at h
    | int m =>
      rcases List.mem_cons.mp hx with rfl | hx2
      · simp [IntOrNan.isInt, ho]
      · rw [CAfold] at h
        simp only [ho, addField, Except.bind, bind] at h
        exact CAfold_all_int h x hx2

/-- Full correctness of `ComputeAverage` on sentinel-free observations. -/
lemma ComputeAverage_ok {obs : List Region} (h : ∀ o ∈ obs, o.NewCases.isInt) :
    ∃ m : List (String × ℚ), ComputeAverage obs = .ok m ∧
      (m.map Prod.fst).Nodup ∧
      (∀ k : String, k ∈ m.map Prod.fst ↔ k ∈ obs.map Region.Name) ∧
      ∀ p ∈ m, p.2 = pyRound2 ((sumNC p.1 obs : ℚ) / (cntNC p.1 obs : ℚ)) := by
  obtain ⟨D, C, hfold, hD, hC, hkeys, hnd⟩ := CAfold_ok_of_int CAInv_nil h
  simp only [List.nil_append] at hD hC
  have hstep : ∀ p ∈ D,
      (match dfind C p.1 with
        | none => Except.error PyErr.keyError
        | some c =>
          if c = 0 then Except.error PyErr.zeroDivisionError
          else Except.ok (p.1, pyRound2 ((p.2 : ℚ) / (c : ℚ)))) =
        Except.ok (p.1, pyRound2 ((p.2 : ℚ) / (cntNC p.1 obs : ℚ))) := by
    intro p hp
    have hpk : p.1 ∈ D.map Prod.fst := List.mem_map.mpr ⟨p, hp, rfl⟩
    have hmem : p.1 ∈ obs.map Region.Name := by
      by_contra hm
      have hnone : dfind D p.1 = none := by rw [hD p.1, if_neg hm]
      exact absurd hpk ((dfind_eq_none_iff D p.1).mp hnone)
    have hCp : dfind C p.1 = some (cntNC p.1 obs) := by rw [hC p.1, if_pos hmem]
    rw [hCp]
    simp [Nat.pos_iff_ne_zero.mp (cntNC_pos hmem)]
  have hmap := mapME_map (l := D)
    (g := fun p => (p.1, pyRound2 ((p.2 : ℚ) / (cntNC p.1 obs : ℚ)))) hstep
  refine ⟨D.map fun p => (p.1, pyRound2 ((p.2 : ℚ) / (cntNC p.1 obs : ℚ))), ?_, ?_, ?_, ?_⟩
  · rw [ComputeAverage, hfold]
    simp only [Except.bind, bind]
    exact hmap
  · have : (D.map fun p => (p.1, pyRound2 ((p.2 : ℚ) / (cntNC p.1 obs : ℚ)))).map Prod.fst =
        D.map Prod.fst := by simp [Function.comp]
    rw [this]
    exact hnd
  · intro k
    have : (D.map fun p => (p.1, pyRound2 ((p.2 : ℚ) / (cntNC p.1 obs : ℚ)))).map Prod.fst =
        D.map Prod.fst := by simp [Function.comp]
    rw [this]
    constructor
    · intro hk
      by_contra hm
      have hnone : dfind D k = none := by rw [hD k, if_neg hm]
      exact absurd hk ((dfind_eq_none_iff D k).mp hnone)
    · intro hm
      by_contra hk
      have hnone : dfind D k = none := (dfind_eq_none_iff D k).mpr hk
      rw [hD k, if_pos hm] at hnone
      cases hnone
  · intro p hp
    obtain ⟨q, hq, rfl⟩ := List.mem_map.mp hp
    have hdq : dfind D q.1 = some q.2 := dfind_of_mem_nodup hnd (by simpa using hq)
    rw [hD q.1] at hdq
    split_ifs at hdq with hm
    simp only [Option.some.injEq] at hdq
    simp [hdq]

/-! ### The sort: success path -/

/-- Sentinel-free observation with nonzero total cases: the comparator is
pure on these. -/
def goodObs (o : Region) : Prop :=
  o.Deaths.isInt ∧ o.TotalCases.isInt ∧ o.TotalCases ≠ IntOrNan.int 0

instance : DecidablePred goodObs := fun o =>
  inferInstanceAs
    (Decidable (o.Deaths.isInt ∧ o.TotalCases.isInt ∧ o.TotalCases ≠ IntOrNan.int 0))

lemma isInt_exists {x : IntOrNan} (h : x.isInt) : ∃ n : ℤ, x = .int n := by
  cases x with
  | int n => exact ⟨n, rfl⟩
  | nan => exact absurd h (by simp [IntOrNan.isInt])

lemma ratioDiv_good {o : Region} (h : goodObs o) :
    ratioDiv o.Deaths o.TotalCases = .ok (some (ratioQ o)) := by
  obtain ⟨hd, ht, hne⟩ := h
  obtain ⟨d, hd⟩ := isInt_exists hd
  obtain ⟨t, ht⟩ := isInt_exists ht
  have htne : t ≠ 0 := by
    rintro rfl
    exact hne ht
  rw [hd, ht, ratioDiv, if_neg htne]
  simp [ratioQ, hd, ht, IntOrNan.val]

lemma ltE_good {a b : Region} (ha : goodObs a) (hb : goodObs b) :
    Region.ltE a b = .ok (decide (ratioQ a < ratioQ b)) := by
  rw [Region.ltE, ratioDiv_good ha]
  simp only [Except.bind, bind]
  rw [ratioDiv_good hb]
  simp [pure, Except.pure]

lemma orderedInsertE_pure {a : Region} (ha : goodObs a) :
    ∀ {s : List Region}, (∀ b ∈ s, goodObs b) →
      orderedInsertE Region.ltE a s = .ok (List.orderedInsert ratioLE a s)
  | [], _ => rfl
  | b :: t, h => by
    have hb := h b (by simp)
    rw [orderedInsertE]
    simp only [ltE_good hb ha, Except.bind, bind]
    by_cases hlt : ratioQ b < ratioQ a
    · have hr : ¬ ratioLE a b := not_le.mpr hlt
      rw [List.orderedInsert, if_neg hr]
      simp only [decide_eq_true_eq, hlt, if_pos]
      rw [orderedInsertE_pure ha fun x hx => h x (by simp [hx])]
      rfl
    · have hr : ratioLE a b := not_lt.mp hlt
      rw [List.orderedInsert, if_pos hr]
      simp [hlt, pure, Except.pure]

lemma insertionSortE_pure :
    ∀ {l : List Region}, (∀ o ∈ l, goodObs o) →
      insertionSortE Region.ltE l = .ok (List.insertionSort ratioLE l)
  | [], _ => rfl
  | a :: l, h => by
    have hrec := insertionSortE_pure (l := l) fun x hx => h x (by simp [hx])
    rw [insertionSortE]
    simp only [hrec, Except.bind, bind]
    rw [List.insertionSort]
    exact orderedInsertE_pure (h a (by simp))
      fun x hx => h x (List.mem_cons_of_mem a ((List.mem_insertionSort ratioLE).mp hx))

lemma filter_orderedInsert (c : ℚ) (a : Region) (l : List Region) :
    (List.orderedInsert ratioLE a l).filter (fun o => decide (ratioQ o = c)) =
      if ratioQ a = c then a :: l.filter (fun o => decide (ratioQ o = c))
      else l.filter (fun o => decide (ratioQ o = c)) := by
  rw [List.orderedInsert_eq_take_drop, List.filter_append, List.filter_cons]
  have hsplit : l.filter (fun o => decide (ratioQ o = c)) =
      (l.takeWhile fun b => ¬ ratioLE a b).filter (fun o => decide (ratioQ o = c)) ++
        (l.dropWhile fun b => ¬ ratioLE a b).filter (fun o => decide (ratioQ o = c)) := by
    rw [← List.filter_append, List.takeWhile_append_dropWhile]
  by_cases hc : ratioQ a = c
  · have htw : (l.takeWhile fun b => ¬ ratioLE a b).filter
        (fun o => decide (ratioQ o = c)) = [] := by
      rw [List.filter_eq_nil_iff]
      intro x hx
      have hpx : ¬ ratioLE a x := by simpa using List.mem_takeWhile_imp hx
      have hxa : ratioQ x < ratioQ a := not_le.mp hpx
      simp only [decide_eq_true_eq]
      exact fun he => absurd (he.trans hc.symm) (ne_of_lt hxa)
    rw [if_pos hc, hsplit, htw]
    simp [hc]
  · rw [if_neg hc, hsplit]
    simp [hc]

lemma filter_insertionSort (c : ℚ) :
    ∀ l : List Region,
      (List.insertionSort ratioLE l).filter (fun o => decide (ratioQ o = c)) =
        l.filter (fun o => decide (ratioQ o = c))
  | [] => rfl
  | a :: l => by
    rw [List.insertionSort, filter_orderedInsert, filter_insertionSort c l, List.filter_cons]
    by_cases hc : ratioQ a = c <;> simp [hc]

/-! ### The sort: error path -/

lemma orderedInsertE_perm {lt : Region → Region → Except PyErr Bool} {a : Region} :
    ∀ {s r : List Region}, orderedInsertE lt a s = .ok r → r.Perm (a :: s)
  | [], r, h => by
    rw [orderedInsertE] at h
    cases h
    rfl
  | b :: t, r, h => by
    rw [orderedInsertE] at h
    cases hc : lt b a with
    | error e => rw [hc] at h; cases h
    | ok v =>
      rw [hc] at h
      simp only [Except.bind, bind] at h
      cases v with
      | true =>
        simp only [eq_self_iff_true, if_true] at h
        cases ht : orderedInsertE lt a t with
        | error e => rw [ht] at h; cases h
        | ok r2 =>
          rw [ht] at h
          simp only [eq_self_iff_true, if_true, pure, Except.pure, Except.ok.injEq] at h
          subst h
          exact ((orderedInsertE_perm ht).cons b).trans (List.Perm.swap a b t)
      | false =>
        simp only [Bool.false_eq_true, if_false, ite_false, pure, Except.pure,
          Except.ok.injEq] at h
        subst h
        rfl

lemma insertionSortE_perm {lt : Region → Region → Except PyErr Bool} :
    ∀ {l s : List Region}, insertionSortE lt l = .ok s → s.Perm l
  | [], s, h => by
    rw [insertionSortE] at h
    cases h
    rfl
  | a :: t, s, h => by
    rw [insertionSortE] at h
    cases ht : insertionSortE lt t with
    | error e => rw [ht] at h; cases h
    | ok s2 =>
      rw [ht] at h
      simp only [Except.bind, bind] at h
      exact (orderedInsertE_perm h).trans ((insertionSortE_perm ht).cons a)

lemma ltE_err_left {a : Region} (b : Region) (h : a.TotalCases = .int 0) :
    Region.ltE a b = .error .zeroDivisionError := by
  rw [Region.ltE, h]
  simp [ratioDiv, Except.bind, bind]

lemma ltE_err_right {a : Region} (b : Region) (h : a.TotalCases = .int 0) :
    ∃ e, Region.ltE b a = .error e := by
  rw [Region.ltE]
  cases hb : ratioDiv b.Deaths b.TotalCases with
  | error e => exact ⟨e, by simp [hb, Except.bind, bind]⟩
  | ok x =>
    refine ⟨.zeroDivisionError, ?_⟩
    rw [h]
    simp [hb, ratioDiv, Except.bind, bind]

lemma insertionSortE_err :
    ∀ {l : List Region} {z : Region}, z ∈ l → 2 ≤ l.length →
      z.TotalCases = .int 0 → ∃ e, insertionSortE Region.ltE l = .error e
  | [], z, hz, _, _ => absurd hz (by simp)
  | a :: t, z, hz, hlen, h0 => by
    rw [insertionSortE]
    cases ht : insertionSortE Region.ltE t with
    | error e => exact ⟨e, by simp [ht, Except.bind, bind]⟩
    | ok s =>
      have htne : t ≠ [] := by
        rintro rfl
        simp at hlen
      have hsne : s ≠ [] := by
        have := (insertionSortE_perm ht).length_eq
        intro he
        rw [he] at this
        exact htne (List.eq_nil_of_length_eq_zero this.symm)
      rcases List.mem_cons.mp hz with rfl | hzt
      · obtain ⟨b, s2, rfl⟩ := List.exists_cons_of_ne_nil hsne
        obtain ⟨e, he⟩ := ltE_err_right b h0
        refine ⟨e, ?_⟩
        simp [ht, Except.bind, bind, orderedInsertE, he]
      · by_cases h2 : 2 ≤ t.length
        · obtain ⟨e, he⟩ := insertionSortE_err hzt h2 h0
          rw [he] at ht
          cases ht
        · have h1 : t.length = 1 := by
            have := List.length_pos.mpr htne
            omega
          obtain ⟨b, t2, rfl⟩ := List.exists_cons_of_ne_nil htne
          have ht2 : t2 = [] := by
            simpa using h1
          subst ht2
          have hzb : z = b := by simpa using hzt
          subst hzb
          have hs : s = [z] := by
            have hself : insertionSortE Region.ltE [z] = .ok [z] := rfl
            rw [hself] at ht
            simp only [Except.ok.injEq] at ht
            exact ht.symm
          subst hs
          refine ⟨.zeroDivisionError, ?_⟩
          simp [ht, Except.bind, bind, orderedInsertE, ltE_err_left a h0]

lemma ltE_err_zd {a b : Region} (ha : a.TotalCases.isInt) (hb : b.TotalCases.isInt)
    {e : PyErr} (h : Region.ltE a b = .error e) : e = .zeroDivisionError := by
  obtain ⟨ta, hta⟩ := isInt_exists ha
  obtain ⟨tb, htb⟩ := isInt_exists hb
  rw [Region.ltE, hta, htb] at h
  by_cases h1 : ta = 0
  · subst h1
    simp [ratioDiv, Except.bind, bind] at h
    exact h.symm
  · by_cases h2 : tb = 0
    · subst h2
      cases hda : a.Deaths <;>
        simp [ratioDiv, h1, hda, Except.bind, bind] at h <;> exact h.symm
    · cases hda : a.Deaths <;> cases hdb : b.Deaths <;>
        simp [ratioDiv, h1, h2, hda, hdb, Except.bind, bind, pure, Except.pure] at h

lemma orderedInsertE_err_zd {a : Region} (ha : a.TotalCases.isInt) :
    ∀ {s : List Region}, (∀ b ∈ s, b.TotalCases.isInt) →
      ∀ {e : PyErr}, orderedInsertE Region.ltE a s = .error e → e = .zeroDivisionError
  | [], _, e, h => by rw [orderedInsertE] at h; cases h
  | b :: t, hs, e, h => by
    rw [orderedInsertE] at h
    cases hc : Region.ltE b a with
    | error e2 =>
      rw [hc] at h
      cases h
      exact ltE_err_zd (hs b (by simp)) ha hc
    | ok v =>
      rw [hc] at h
      simp only [Except.bind, bind] at h
      cases v with
      | true =>
        simp only [if_pos rfl] at h
        cases ht : orderedInsertE Region.ltE a t with
        | error e2 =>
          rw [ht] at h
          cases h
          exact orderedInsertE_err_zd ha (fun x hx => hs x (by simp [hx])) ht
        | ok r2 => rw [ht] at h; simp [pure, Except.pure] at h
      | false => simp [pure, Except.pure] at h

lemma insertionSortE_err_zd :
    ∀ {l : List Region}, (∀ o ∈ l, o.TotalCases.isInt) →
      ∀ {e : PyErr}, insertionSortE Region.ltE l = .error e → e = .zeroDivisionError
  | [], _, e, h => by rw [insertionSortE] at h; cases h
  | a :: t, hl, e, h => by
    rw [insertionSortE] at h
    cases ht : insertionSortE Region.ltE t with
    | error e2 =>
      rw [ht] at h
      cases h
      exact insertionSortE_err_zd (fun x hx => hl x (by simp [hx])) ht
    | ok s =>
      rw [ht] at h
      simp only [Except.bind, bind] at h
      have hmem : ∀ b ∈ s, b.TotalCases.isInt := by
        intro b hb
        exact hl b (by simp [(insertionSortE_perm ht).mem_iff.mp hb])
      exact orderedInsertE_err_zd (hl a (by simp)) hmem h


/-! ### Claim theorems -/

/-- Row with 17 fields whose ICU entry is the negative integer string. -/
def rowNeg : List String :=
  ["2020-06-15T17:00:00", "ITA", "13", "Lazio", "41.9", "12.5", "20", "-1",
   "30", "100", "500", "1", "5", "2", "40", "3", "9000"]

/-- The observation `Region.__init__` builds from `rowNeg`. -/
def regNeg : Region :=
  { Date := "2020-06-15T17:00:00", Name := "Lazio", ICU := .int (-1),
    NewCases := .int 5, Deaths := .int 40, TotalCases := .int 500,
    Tests := .int 9000 }

/-- C2 counterexample: a CSV field holding a negative integer string parses to
a negative field value, contradicting the claim that numeric fields are never
negative. -/
theorem Region_init_negative_field :
    Region.init rowNeg = .ok regNeg ∧ regNeg.ICU = IntOrNan.int (-1) ∧ (-1 : ℤ) < 0 := by
  refine ⟨?_, rfl, by norm_num⟩
  rfl

/-- C2 (amended): every numeric field of a constructed Observation is either
the exact integer value of a valid (possibly signed) integer string — never a
partially parsed value — or the not-a-number sentinel. -/
theorem Region_fields_int_or_sentinel (row : List String) (reg : Region)
    (h : Region.init row = .ok reg) :
    ∀ p ∈ [((7 : ℕ), reg.ICU), (12, reg.NewCases), (14, reg.Deaths),
        (10, reg.TotalCases), (16, reg.Tests)],
      p.2 = str2int (row.getD p.1 "") ∧
      ((∃ n : ℤ, p.2 = IntOrNan.int n ∧ SpecValidIntString (row.getD p.1 "") n) ∨
        (p.2 = IntOrNan.nan ∧ ¬ ∃ n : ℤ, SpecValidIntString (row.getD p.1 "") n)) := by
  obtain ⟨h7, h12, h14, h10, h16⟩ := Region_init_fields h
  have key : ∀ (i : ℕ) (f : IntOrNan), f = str2int (row.getD i "") →
      f = str2int (row.getD i "") ∧
      ((∃ n : ℤ, f = IntOrNan.int n ∧ SpecValidIntString (row.getD i "") n) ∨
        (f = IntOrNan.nan ∧ ¬ ∃ n : ℤ, SpecValidIntString (row.getD i "") n)) := by
    intro i f hf
    refine ⟨hf, ?_⟩
    rcases str2int_cases (row.getD i "") with hc | ⟨n, hv, he⟩
    · exact Or.inr ⟨hf.trans hc, str2int_nan_not_valid hc⟩
    · exact Or.inl ⟨n, hf.trans he, hv⟩
  intro p hp
  simp only [List.mem_cons, List.not_mem_nil, or_false] at hp
  rcases hp with rfl | rfl | rfl | rfl | rfl
  · exact key 7 reg.ICU h7
  · exact key 12 reg.NewCases h12
  · exact key 14 reg.Deaths h14
  · exact key 10 reg.TotalCases h10
  · exact key 16 reg.Tests h16

/-- Witness for the amended C2 theorem at the concrete row `rowNeg`, read off
at the ICU field. -/
theorem Region_fields_int_or_sentinel_witness :
    regNeg.ICU = str2int (rowNeg.getD 7 "") ∧
    ((∃ n : ℤ, regNeg.ICU = IntOrNan.int n ∧ SpecValidIntString (rowNeg.getD 7 "") n) ∨
      (regNeg.ICU = IntOrNan.nan ∧ ¬ ∃ n : ℤ, SpecValidIntString (rowNeg.getD 7 "") n)) :=
  Region_fields_int_or_sentinel rowNeg regNeg (by rfl) (7, regNeg.ICU) (by simp)

/-- C4: `str2int` never raises: a string validly denoting an integer is sent
to that integer, and every string is sent either to an integer its text
validly denotes or to the sentinel (so non-numeric strings get the
sentinel). -/
theorem str2int_total_correct :
    (∀ (s : String) (n : ℤ), SpecValidIntString s n → str2int s = IntOrNan.int n) ∧
    (∀ s : String, str2int s = IntOrNan.nan ∨
      ∃ n : ℤ, SpecValidIntString s n ∧ str2int s = IntOrNan.int n) := by
  constructor
  · intro s n hv
    rw [str2int, pyParseInt_complete hv]
  · exact str2int_cases

/-- Witness for C4: a plain digit string parses to its value, and a
non-numeric string yields the sentinel. -/
theorem str2int_total_correct_witness :
    str2int "42" = IntOrNan.int 42 ∧ str2int "abc" = IntOrNan.nan := by
  constructor
  · exact str2int_total_correct.1 "42" 42
      ⟨[], [], ['4', '2'], [], by decide, by decide, by decide, Or.inl rfl,
        by decide, by decide, by decide⟩
  · rcases str2int_total_correct.2 "abc" with h | ⟨n, hv, _⟩
    · exact h
    · have hnone : pyParseInt "abc" = none := by decide
      rw [pyParseInt_complete hv] at hnone
      cases hnone

/-- C5 (amended): on a file whose data rows all split into at least 17
fields, `Parse` discards the header and returns exactly one `Region` per data
row, in file order. -/
theorem Parse_rows_in_order (hdr : String) (rows : List String)
    (h : ∀ r ∈ rows, 17 ≤ (splitRow r).length) :
    ∃ ls : List Region, Parse (hdr :: rows) = .ok ls ∧ ls.length = rows.length ∧
      ∀ i (hi : i < rows.length) (hi2 : i < ls.length),
        Region.init (splitRow (rows.get ⟨i, hi⟩)) = .ok (ls.get ⟨i, hi2⟩) := by
  have hall : ∀ r ∈ rows, ∃ b, Region.init (splitRow r) = .ok b :=
    fun r hr => ⟨_, Region_init_ok (h r hr)⟩
  obtain ⟨bs, hbs, hlen, hpt⟩ := mapME_ok_all hall
  refine ⟨bs, ?_, hlen, hpt⟩
  rw [Parse]
  simpa using hbs

/-- A well-formed 17-field data row used in the parsing witnesses. -/
def rowOkLine : String :=
  "2020-06-15T17:00:00,ITA,13,Lazio,41.9,12.5,20,7,30,100,500,1,5,2,40,3,9000"

/-- Witness for the amended C5 theorem on a one-row file. -/
theorem Parse_rows_in_order_witness :
    ∃ ls : List Region, Parse ["header", rowOkLine] = .ok ls ∧ ls.length = [rowOkLine].length ∧
      ∀ i (hi : i < [rowOkLine].length) (hi2 : i < ls.length),
        Region.init (splitRow ([rowOkLine].get ⟨i, hi⟩)) = .ok (ls.get ⟨i, hi2⟩) :=
  Parse_rows_in_order "header" [rowOkLine] (by decide)

/-- C5 counterexample: a data row with a single field makes `Parse` raise an
index error instead of returning one Observation. -/
theorem Parse_short_row_fails :
    Parse ["h", "a"] = .error PyErr.indexError ∧
      ¬ ∃ ls : List Region, Parse ["h", "a"] = .ok ls ∧ ls.length = 1 := by
  have he : Parse ["h", "a"] = .error PyErr.indexError := by rfl
  refine ⟨he, ?_⟩
  rintro ⟨ls, hls, _⟩
  rw [he] at hls
  cases hls

/-- C6: `ParseFiles` is the concatenation of the per-file parses, in file
order, keeping every Observation (so duplicated rows across files are all
kept: parsing the same file twice yields its rows twice). -/
theorem ParseFiles_concat (fs : List (List String)) :
    ParseFiles fs = Except.map (fun ls => ls.flatten) (mapME Parse fs) ∧
    ∀ (f : List String) (l : List Region),
      Parse f = .ok l → ParseFiles [f, f] = .ok (l ++ l) := by
  constructor
  · rw [ParseFiles, ParseFilesLoop_eq]
    cases mapME Parse fs <;> simp [Except.map]
  · intro f l hl
    rw [ParseFiles, ParseFilesLoop_eq]
    simp [mapME, hl, Except.bind, bind, pure, Except.pure, Except.map]

/-- The observation parsed from `rowOkLine`. -/
def regOk : Region :=
  { Date := "2020-06-15T17:00:00", Name := "Lazio", ICU := .int 7,
    NewCases := .int 5, Deaths := .int 40, TotalCases := .int 500,
    Tests := .int 9000 }

/-- Witness for C6 on a concrete duplicated one-row file: both copies of the
row are kept, none deduplicated. -/
theorem ParseFiles_concat_witness :
    ParseFiles [["h", rowOkLine], ["h", rowOkLine]] = .ok ([regOk] ++ [regOk]) :=
  (ParseFiles_concat []).2 ["h", rowOkLine] [regOk] (by rfl)

/-- C3 (amended): on observation sequences whose new-case fields are all
integers, `ComputeAverage` returns a mapping whose key set is exactly the set
of distinct region names, with each value the half-to-even two-decimal
rounding of the mean of that region's new-case counts; in particular new-case
values 2, 4, 6 give 4, values 1, 2 give 1.5, and values 1, 1, 2 give 1.33. -/
theorem ComputeAverage_mean_spec (obs : List Region)
    (h : ∀ o ∈ obs, o.NewCases.isInt) :
    (∃ m : List (String × ℚ), ComputeAverage obs = .ok m ∧
      (m.map Prod.fst).Nodup ∧
      (∀ k : String, k ∈ m.map Prod.fst ↔ k ∈ obs.map Region.Name) ∧
      ∀ p ∈ m, p.2 = pyRound2 ((sumNC p.1 obs : ℚ) / (cntNC p.1 obs : ℚ))) ∧
    ComputeAverage [mkObs "R" (.int 2), mkObs "R" (.int 4), mkObs "R" (.int 6)] =
      .ok [("R", 4)] ∧
    ComputeAverage [mkObs "R" (.int 1), mkObs "R" (.int 2)] = .ok [("R", 3 / 2)] ∧
    ComputeAverage [mkObs "R" (.int 1), mkObs "R" (.int 1), mkObs "R" (.int 2)] =
      .ok [("R", 133 / 100)] := by
  refine ⟨ComputeAverage_ok h, ?_, ?_, ?_⟩ <;>
    norm_num [ComputeAverage, CAfold, mkObs, dget, dfind, dinsert, addField, mapME,
      pyRound2, rndHalfEven, Except.bind, bind, pure, Except.pure]

/-- Witness for the amended C3 theorem on two rows for one region. -/
theorem ComputeAverage_mean_spec_witness :
    (∃ m : List (String × ℚ),
      ComputeAverage [mkObs "Lazio" (.int 10), mkObs "Lazio" (.int 20)] = .ok m ∧
      (m.map Prod.fst).Nodup ∧
      (∀ k : String, k ∈ m.map Prod.fst ↔
        k ∈ [mkObs "Lazio" (.int 10), mkObs "Lazio" (.int 20)].map Region.Name) ∧
      ∀ p ∈ m, p.2 = pyRound2
        ((sumNC p.1 [mkObs "Lazio" (.int 10), mkObs "Lazio" (.int 20)] : ℚ) /
          (cntNC p.1 [mkObs "Lazio" (.int 10), mkObs "Lazio" (.int 20)] : ℚ))) ∧
    ComputeAverage [mkObs "R" (.int 2), mkObs "R" (.int 4), mkObs "R" (.int 6)] =
      .ok [("R", 4)] ∧
    ComputeAverage [mkObs "R" (.int 1), mkObs "R" (.int 2)] = .ok [("R", 3 / 2)] ∧
    ComputeAverage [mkObs "R" (.int 1), mkObs "R" (.int 1), mkObs "R" (.int 2)] =
      .ok [("R", 133 / 100)] :=
  ComputeAverage_mean_spec [mkObs "Lazio" (.int 10), mkObs "Lazio" (.int 20)] (by decide)

/-- C3 counterexample: a single observation whose new-case field is the
sentinel makes `ComputeAverage` raise a type error instead of returning a
mapping, so the unconditional claim fails. -/
theorem ComputeAverage_sentinel_error :
    ComputeAverage [mkObs "R" IntOrNan.nan] = .error PyErr.typeError ∧
      ¬ ∃ m : List (String × ℚ), ComputeAverage [mkObs "R" IntOrNan.nan] = .ok m := by
  have he : ComputeAverage [mkObs "R" IntOrNan.nan] = .error PyErr.typeError := by rfl
  refine ⟨he, ?_⟩
  rintro ⟨m, hm⟩
  rw [he] at hm
  cases hm

/-- C9: whenever the accumulation loop of `ComputeAverage` completes, the sum
and count dictionaries have identical key lists and every count is at least
one, so the per-region division never divides by zero and never misses a
key. -/
theorem CAfold_keys_counts_safe (obs : List Region) (D : List (String × ℤ))
    (C : List (String × ℕ)) (h : CAfold obs [] [] = .ok (D, C)) :
    D.map Prod.fst = C.map Prod.fst ∧ (∀ p ∈ C, 1 ≤ p.2) ∧
    ComputeAverage obs ≠ .error PyErr.zeroDivisionError ∧
    ComputeAverage obs ≠ .error PyErr.keyError := by
  have hint := CAfold_all_int h
  obtain ⟨D2, C2, hfold, hD2, hC2, hkeys, hnd⟩ := CAfold_ok_of_int CAInv_nil hint
  simp only [List.nil_append] at hD2 hC2
  rw [h] at hfold
  simp only [Except.ok.injEq, Prod.mk.injEq] at hfold
  obtain ⟨rfl, rfl⟩ := hfold
  obtain ⟨m, hok, -, -, -⟩ := ComputeAverage_ok hint
  refine ⟨hkeys, ?_, ?_, ?_⟩
  · intro p hp
    have hndC : (C.map Prod.fst).Nodup := hkeys ▸ hnd
    have hfind : dfind C p.1 = some p.2 := dfind_of_mem_nodup hndC (by simpa using hp)
    rw [hC2 p.1] at hfind
    split_ifs at hfind with hm
    simp only [Option.some.injEq] at hfind
    rw [← hfind]
    exact cntNC_pos hm
  · rw [hok]
    simp
  · rw [hok]
    simp

/-- Witness for C9 at a concrete one-row observation list. -/
theorem CAfold_keys_counts_safe_witness :
    [("R", (2 : ℤ))].map Prod.fst = [("R", (1 : ℕ))].map Prod.fst ∧
    (∀ p ∈ [("R", (1 : ℕ))], 1 ≤ p.2) ∧
    ComputeAverage [mkObs "R" (.int 2)] ≠ .error PyErr.zeroDivisionError ∧
    ComputeAverage [mkObs "R" (.int 2)] ≠ .error PyErr.keyError :=
  CAfold_keys_counts_safe [mkObs "R" (.int 2)] [("R", 2)] [("R", 1)] (by rfl)

/-- C1 (amended): on observation sequences whose Deaths and TotalCases fields
are integers with nonzero totals, `TopRegion` returns the first `n` elements
of a list that is a permutation of the input sorted by death-to-total ratio
descending, stable (equal-ratio observations keep their input order), so the
output has exactly `min n (length obs)` elements, is sorted descending, and
its equal-ratio runs are prefixes of the corresponding input runs. -/
theorem TopRegion_sorted_stable (obs : List Region) (n : ℕ)
    (h : ∀ o ∈ obs, goodObs o) :
    ∃ L : List Region,
      TopRegion obs n = .ok (L.take n) ∧
      (L.take n).length = min n obs.length ∧
      L.Perm obs ∧
      L.Pairwise (fun a b => ratioQ b ≤ ratioQ a) ∧
      (L.take n).Pairwise (fun a b => ratioQ b ≤ ratioQ a) ∧
      (∀ c : ℚ, L.filter (fun o => decide (ratioQ o = c)) =
        obs.filter (fun o => decide (ratioQ o = c))) ∧
      (∀ c : ℚ, List.IsPrefix ((L.take n).filter (fun o => decide (ratioQ o = c)))
        (obs.filter (fun o => decide (ratioQ o = c)))) := by
  refine ⟨(List.insertionSort ratioLE obs.reverse).reverse, ?_, ?_, ?_, ?_, ?_, ?_, ?_⟩
  case _ =>
    have hrev : ∀ o ∈ obs.reverse, goodObs o := fun o ho => h o (List.mem_reverse.mp ho)
    have hsort := insertionSortE_pure hrev
    rw [TopRegion, pysortedRev]
    simp [hsort, Except.bind, bind, pure, Except.pure]
  case _ =>
    rw [List.length_take, List.length_reverse, (List.perm_insertionSort _ _).length_eq,
      List.length_reverse]
  case _ =>
    exact ((List.reverse_perm _).trans (List.perm_insertionSort _ _)).trans
      (List.reverse_perm obs)
  case _ =>
    rw [List.pairwise_reverse]
    exact List.sorted_insertionSort ratioLE obs.reverse
  case _ =>
    have hp : (List.insertionSort ratioLE obs.reverse).reverse.Pairwise
        (fun a b => ratioQ b ≤ ratioQ a) := by
      rw [List.pairwise_reverse]
      exact List.sorted_insertionSort ratioLE obs.reverse
    exact hp.sublist (List.take_sublist n _)
  case _ =>
    intro c
    rw [List.filter_reverse, filter_insertionSort c, List.filter_reverse,
      List.reverse_reverse]
  case _ =>
    intro c
    have hfil : (List.insertionSort ratioLE obs.reverse).reverse.filter
        (fun o => decide (ratioQ o = c)) = obs.filter (fun o => decide (ratioQ o = c)) := by
      rw [List.filter_reverse, filter_insertionSort c, List.filter_reverse,
        List.reverse_reverse]
    rw [← hfil]
    refine ⟨((List.insertionSort ratioLE obs.reverse).reverse.drop n).filter
      (fun o => decide (ratioQ o = c)), ?_⟩
    rw [← List.filter_append, List.take_append_drop]

/-- Witness for the amended C1 theorem: three observations, two of them tied
on the ratio one twentieth. -/
theorem TopRegion_sorted_stable_witness :
    ∃ L : List Region,
      TopRegion [mkRank "A" 5 100, mkRank "B" 20 100, mkRank "C" 1 20] 2 = .ok (L.take 2) ∧
      (L.take 2).length = min 2 [mkRank "A" 5 100, mkRank "B" 20 100, mkRank "C" 1 20].length ∧
      L.Perm [mkRank "A" 5 100, mkRank "B" 20 100, mkRank "C" 1 20] ∧
      L.Pairwise (fun a b => ratioQ b ≤ ratioQ a) ∧
      (L.take 2).Pairwise (fun a b => ratioQ b ≤ ratioQ a) ∧
      (∀ c : ℚ, L.filter (fun o => decide (ratioQ o = c)) =
        [mkRank "A" 5 100, mkRank "B" 20 100, mkRank "C" 1 20].filter
          (fun o => decide (ratioQ o = c))) ∧
      (∀ c : ℚ, List.IsPrefix ((L.take 2).filter (fun o => decide (ratioQ o = c)))
        ([mkRank "A" 5 100, mkRank "B" 20 100, mkRank "C" 1 20].filter
          (fun o => decide (ratioQ o = c)))) :=
  TopRegion_sorted_stable [mkRank "A" 5 100, mkRank "B" 20 100, mkRank "C" 1 20] 2
    (by decide)

/-- C1 counterexample: with a zero-total observation present (in a list of
two), `TopRegion` raises instead of returning the claimed min(n, len)
sorted observations. -/
theorem TopRegion_no_result_on_zero_total :
    ¬ ∃ out : List Region, TopRegion [mkRank "Z" 1 0, mkRank "B" 20 100] 2 = .ok out := by
  have he : TopRegion [mkRank "Z" 1 0, mkRank "B" 20 100] 2 = .error .zeroDivisionError := by
    norm_num [TopRegion, pysortedRev, insertionSortE, orderedInsertE, Region.ltE, ratioDiv,
      mkRank, Except.bind, bind, pure, Except.pure]
  rintro ⟨out, hout⟩
  rw [he] at hout
  cases hout

/-- C7 (amended): on a sequence of at least two observations whose total-case
fields are all integers, one of them zero, `TopRegion` fails with the
division-by-zero error. -/
theorem TopRegion_zero_total_error (obs : List Region) (n : ℕ)
    (h2 : 2 ≤ obs.length) (hint : ∀ o ∈ obs, o.TotalCases.isInt)
    (hz : ∃ o ∈ obs, o.TotalCases = IntOrNan.int 0) :
    TopRegion obs n = .error PyErr.zeroDivisionError := by
  obtain ⟨z, hzmem, hz0⟩ := hz
  have hzr : z ∈ obs.reverse := List.mem_reverse.mpr hzmem
  have hlen : 2 ≤ obs.reverse.length := by simpa using h2
  obtain ⟨e, he⟩ := insertionSortE_err hzr hlen hz0
  have hezd : e = .zeroDivisionError :=
    insertionSortE_err_zd (fun o ho => hint o (List.mem_reverse.mp ho)) he
  subst hezd
  rw [TopRegion, pysortedRev]
  simp [he, Except.bind, bind]

/-- Witness for the amended C7 theorem on a concrete two-element list. -/
theorem TopRegion_zero_total_error_witness :
    TopRegion [mkRank "Q" 3 50, mkRank "W" 1 0] 5 = .error PyErr.zeroDivisionError :=
  TopRegion_zero_total_error [mkRank "Q" 3 50, mkRank "W" 1 0] 5 (by decide) (by decide)
    (by decide)

/-- C7 counterexample: on a singleton sequence the sort makes no comparison,
so `TopRegion` returns the zero-total observation instead of failing. -/
theorem TopRegion_singleton_zero_ok :
    (mkRank "Z" 1 0).TotalCases = IntOrNan.int 0 ∧
    TopRegion [mkRank "Z" 1 0] 3 = .ok [mkRank "Z" 1 0] := by
  refine ⟨rfl, ?_⟩
  norm_num [TopRegion, pysortedRev, insertionSortE, orderedInsertE, Region.ltE, ratioDiv,
    mkRank, Except.bind, bind, pure, Except.pure]

/-- C8: `str2date` on any string of the form YYYY-MM-DDT followed by anything
(in particular the exact timestamp layout) returns the YYYY-MM-DD prefix by
fixed-position slicing; in particular `2020-06-15T18:00:00` yields
`2020-06-15`. -/
theorem str2date_timestamp (y m d rest : List Char)
    (hy : y.length = 4) (hm : m.length = 2) (hd : d.length = 2) :
    str2date (String.mk (y ++ '-' :: (m ++ '-' :: (d ++ 'T' :: rest)))) =
      String.mk (y ++ '-' :: (m ++ '-' :: d)) ∧
    str2date "2020-06-15T18:00:00" = "2020-06-15" := by
  refine ⟨?_, rfl⟩
  have htl : (String.mk (y ++ '-' :: (m ++ '-' :: (d ++ 'T' :: rest)))).toList =
      y ++ '-' :: (m ++ '-' :: (d ++ 'T' :: rest)) := rfl
  simp only [str2date, pySlice]
  rw [htl]
  have e1 : ((y ++ '-' :: (m ++ '-' :: (d ++ 'T' :: rest))).drop 0).take (4 - 0) = y := by
    rw [List.drop_zero, show 4 - 0 = y.length by rw [hy]]
    exact List.take_left y _
  have e2 : ((y ++ '-' :: (m ++ '-' :: (d ++ 'T' :: rest))).drop 5).take (7 - 5) = m := by
    rw [List.append_cons y '-',
      List.drop_left' (show (y ++ ['-']).length = 5 by simp [hy]),
      show 7 - 5 = m.length by rw [hm]]
    exact List.take_left m _
  have e3 : ((y ++ '-' :: (m ++ '-' :: (d ++ 'T' :: rest))).drop 8).take (10 - 8) = d := by
    rw [List.append_cons y '-', List.append_cons m '-', ← List.append_assoc,
      List.drop_left' (show ((y ++ ['-']) ++ (m ++ ['-'])).length = 8 by simp [hy, hm]),
      show 10 - 8 = d.length by rw [hd]]
    exact List.take_left d _
  rw [e1, e2, e3, show ("-" : String) = String.mk ['-'] from rfl]
  show String.mk ((((y ++ ['-']) ++ m) ++ ['-']) ++ d) = _
  exact congrArg String.mk (by simp [List.append_assoc])

/-- Witness for C8 at the concrete June timestamp. -/
theorem str2date_timestamp_witness :
    str2date (String.mk (['2', '0', '2', '0'] ++ '-' :: (['0', '6'] ++ '-' ::
      (['1', '5'] ++ 'T' :: ['1', '8', ':', '0', '0', ':', '0', '0'])))) =
      String.mk (['2', '0', '2', '0'] ++ '-' :: (['0', '6'] ++ '-' :: ['1', '5'])) ∧
    str2date "2020-06-15T18:00:00" = "2020-06-15" :=
  str2date_timestamp ['2', '0', '2', '0'] ['0', '6'] ['1', '5']
    ['1', '8', ':', '0', '0', ':', '0', '0'] (by decide) (by decide) (by decide)

/-- C10: `str2date` is total on every string, returning the three clamped
positional slices joined by two dashes: the result length is determined by
the clamping arithmetic, and the empty string yields the two dashes alone. -/
theorem str2date_total_shape (s : String) :
    (str2date s).length =
      min 4 s.length + min 2 (s.length - 5) + min 2 (s.length - 8) + 2 ∧
    str2date "" = "--" := by
  refine ⟨?_, rfl⟩
  have hslice : ∀ a b : ℕ, (pySlice s a b).length = min (b - a) (s.length - a) := by
    intro a b
    show ((s.toList.drop a).take (b - a)).length = _
    rw [List.length_take, List.length_drop]
    rfl
  simp only [str2date, String.length_append, hslice]
  have hdash : ("-" : String).length = 1 := rfl
  rw [hdash]
  omega
